import Mathlib

/-!
# Verification of the `cache` package (concurrent LRU cache with TTL)

This file gives a shallow embedding of `pkg/cache/cache.go` and proves the
specification claims about it.

Modelling choices, recorded once here:

* `data [MaxCacheSize]*record[V]` (an array of intrusive singly linked
  chains through the `below` pointers) is modelled as a function
  `Fin MaxCacheSize → List (record V)`; a chain is the list of its records
  from the head downwards, so `above.below = r.below; r.below = root;
  c.data[i] = r` (unlink and re-prepend) becomes
  `r :: chain.eraseP (key match)`.
* `lru list.List` stores `*record` elements and the code only ever uses the
  key of the element (`er.key`), `MoveToFront`, `PushFront`, `Remove` and
  `Back`; it is modelled as a `List String` of keys, front first.
* `maphash.String(c.seed, s)` is an arbitrary pure function of the
  immutable per-instance seed; the field `seed : String → Nat` is that
  function, and `hash` takes it `% MaxCacheSize` exactly as the source.
* `size uint64` is a `Nat`, with the `++`/`--` of the source performed
  modulo `2 ^ 64` (`inc64` / `dec64`).
* `time.AfterFunc ttl f` / `t.Stop()` are modelled by a list of armed
  timers (`timers`) plus a fresh-id counter (`nextTimer`): arming records
  `(id, bucket, key, ttl)` with a fresh id, `Stop` removes the id, and the
  event "the still-armed timer with this id elapses" is `fireTimer`,
  which consumes the armed timer and runs its callback
  `deleteWithLock(bucket, key)`.  Go's `Stop` prevents nothing once the
  timer has expired and its callback has been launched (`Stop` then
  returns `false`, which the source ignores): that already-launched
  callback is modelled separately by `firePending`, which runs the
  callback body on whatever state wins it the lock, regardless of the
  armed-timer bookkeeping.
* The mutex discipline (`mustBeLocked`, which panics when the lock is
  free) is modelled with `Except`: the checked entry points
  `lookupChecked` / `deleteChecked` take the lock state and either panic
  (`Except.error`) or run the pure helper.  `Get`/`Set`/`delete` below are
  the within-the-critical-section semantics.
-/

namespace Cache

/-- `const MaxCacheSize = 5` from the source. -/
def MaxCacheSize : Nat := 5

/-- Modulus of the Go `uint64` type of the `size` field. -/
def U64 : Nat := 2 ^ 64

/-- `size++` on a `uint64`. -/
def inc64 (n : Nat) : Nat := (n + 1) % U64

/-- `size--` on a `uint64`. -/
def dec64 (n : Nat) : Nat := (n + (U64 - 1)) % U64

/-- `record[V]`: one cache entry.  The `below` pointer is represented by
list structure of the chain, the `*list.Element` back pointer by the key
in the `lru` list, and the `*time.Timer` handle by the armed timer id. -/
structure record (V : Type) where
  key : String
  val : V
  t : Nat
deriving DecidableEq

/-- An armed TTL timer: `time.AfterFunc(ttl, func() { deleteWithLock(i, key) })`. -/
structure timerRec where
  id : Nat
  bucket : Fin MaxCacheSize
  key : String
  ttl : Int
deriving DecidableEq

/-- `lruCache[V]`: the cache state (the fields guarded by the mutex, plus
the model of the outstanding timers). -/
structure lruCache (V : Type) where
  size : Nat
  seed : String → Nat
  lru : List String
  data : Fin MaxCacheSize → List (record V)
  timers : List timerRec
  nextTimer : Nat

/-- `NewCache`: zero-valued cache with a fresh seed (the seed is the
caller-invisible random hash function). -/
def NewCache (V : Type) (seed : String → Nat) : lruCache V :=
  { size := 0, seed := seed, lru := [], data := fun _ => [],
    timers := [], nextTimer := 0 }

variable {V : Type}

/-- `hash`: `maphash.String(c.seed, s) % MaxCacheSize`. -/
def hash (c : lruCache V) (s : String) : Fin MaxCacheSize :=
  ⟨c.seed s % MaxCacheSize, Nat.mod_lt _ (by decide)⟩

/-- The loop of `lookup`: walk the chain with the running `above`
pointer until the key matches or the chain ends. -/
def lookupGo (key : String) :
    List (record V) → Option (record V) → Option (record V) × Option (record V)
  | [], above => (none, above)
  | r :: rest, above =>
      if r.key == key then (some r, above) else lookupGo key rest (some r)

/-- `lookup(i, key) -> (rec, above, root)` from the source (the
`mustBeLocked` guard is the checked variant `lookupChecked` below). -/
def lookup (c : lruCache V) (i : Fin MaxCacheSize) (key : String) :
    Option (record V) × Option (record V) × Option (record V) :=
  let p := lookupGo key (c.data i) none
  (p.1, p.2, (c.data i).head?)

/-- `delete(idx, key)`: no-op when absent; otherwise stop the timer,
unlink from the chain (`c.data[idx] = r.below` or `above.below = r.below`,
i.e. erase the first key match), remove from the recency list, `size--`. -/
def delete (c : lruCache V) (idx : Fin MaxCacheSize) (key : String) : lruCache V :=
  match (lookup c idx key).1 with
  | none => c
  | some r =>
      { c with
        timers := c.timers.filter (fun tr => tr.id != r.t),
        data := Function.update c.data idx
          ((c.data idx).eraseP (fun x => x.key == key)),
        lru := c.lru.erase key,
        size := dec64 c.size }

/-- `deleteWithLock`: acquires the lock and deletes; the timer callback. -/
def deleteWithLock (c : lruCache V) (idx : Fin MaxCacheSize) (key : String) :
    lruCache V :=
  delete c idx key

/-- `Get`: on hit, bring the record to the top of its chain
(`above.below = r.below; r.below = root; c.data[i] = r`, a no-op when it
is already the root), `MoveToFront` in the recency list, return the value;
on miss return the zero value and `false` with no state change. -/
def Get [Inhabited V] (c : lruCache V) (key : String) : V × Bool × lruCache V :=
  let i := hash c key
  match (lookup c i key).1 with
  | some r =>
      (r.val, true,
        { c with
          data := Function.update c.data i
            (r :: (c.data i).eraseP (fun x => x.key == key)),
          lru := key :: c.lru.erase key })
  | none => (default, false, c)

/-- The `case c.size == MaxCacheSize` arm of `Set`: evict the back of the
recency list when the cache is full.

Two pointer details of the source are captured structurally:

* the `er == root { root = root.below }` adjustment before the eviction
  plus the in-place `above.below` patch inside `delete` together make the
  local `root` the head of the victim's bucket chain *after* the
  deletion, so the fallthrough insertion reads the post-deletion state;
* `c.lru.Back()` on an empty recency list would dereference `nil` in Go;
  that branch is unreachable in any well-formed state (`size` equals the
  recency-list length), and the model skips the eviction there. -/
def evictIfFull (c : lruCache V) : lruCache V :=
  if c.size = MaxCacheSize then
    match c.lru.getLast? with
    | some ek => delete c (hash c ek) ek
    | none => c
  else c

/-- The `default` (fallthrough) arm of `Set`: build the record, arm its
timer, prepend it to bucket `i`, push it to the recency-list front,
`size++`. -/
def pushNew (c : lruCache V) (i : Fin MaxCacheSize) (key : String) (value : V)
    (ttl : Int) : lruCache V :=
  { c with
    data := Function.update c.data i (⟨key, value, c.nextTimer⟩ :: c.data i),
    lru := key :: c.lru,
    timers := ⟨c.nextTimer, i, key, ttl⟩ :: c.timers,
    nextTimer := c.nextTimer + 1,
    size := inc64 c.size }

/-- `Set`: refresh in place on a hit (stop the old timer, overwrite the
value, arm a fresh timer, bring to top of chain and recency list); on a
miss evict the back of the recency list first when full (`evictIfFull`),
then insert a fresh record (`pushNew`). -/
def Set (c : lruCache V) (key : String) (value : V) (ttl : Int) : lruCache V :=
  let i := hash c key
  match (lookup c i key).1 with
  | some r =>
      { c with
        data := Function.update c.data i
          ({ r with val := value, t := c.nextTimer } ::
            (c.data i).eraseP (fun x => x.key == key)),
        lru := key :: c.lru.erase key,
        timers := ⟨c.nextTimer, i, key, ttl⟩ ::
          c.timers.filter (fun tr => tr.id != r.t),
        nextTimer := c.nextTimer + 1 }
  | none => pushNew (evictIfFull c) i key value ttl

/-- The still-armed timer with the given id elapses: it is consumed and
its callback `deleteWithLock(bucket, key)` runs.  A timer stopped while
still armed never reaches its callback; a callback that was already
launched when `Stop` ran is past stopping and is `firePending` below. -/
def fireTimer (c : lruCache V) (id : Nat) : lruCache V :=
  match c.timers.find? (fun tr => tr.id == id) with
  | none => c
  | some tr =>
      deleteWithLock { c with timers := c.timers.filter (fun x => x.id != id) }
        tr.bucket tr.key

/-- A TTL callback whose timer had already expired when `r.t.Stop()` was
called: `Stop` returns `false` (the source discards the result) and the
callback launched at expiry still runs `deleteWithLock(i, key)` with the
bucket and key it captured at arm time, once it wins the lock — whatever
the armed-timer bookkeeping says by then.  Its effect on the state in
which it acquires the lock is exactly the callback body. -/
def firePending (c : lruCache V) (idx : Fin MaxCacheSize) (key : String) :
    lruCache V :=
  deleteWithLock c idx key

/-- All keys stored in the bucket chains, bucket by bucket. -/
def allKeys (c : lruCache V) : List String :=
  (List.finRange MaxCacheSize).flatMap (fun i => (c.data i).map (fun r => r.key))

/-- Well-formedness of a cache state: every record sits in the bucket its
key hashes to, keys are globally unique across the chains, the recency
list holds exactly the chain keys, `size` is the recency-list length and
is bounded by the capacity, and armed timer ids are below the fresh-id
counter. -/
def WF (c : lruCache V) : Prop :=
  (∀ i : Fin MaxCacheSize, ∀ r ∈ c.data i, hash c r.key = i) ∧
  (allKeys c).Nodup ∧
  c.lru.Perm (allKeys c) ∧
  c.size = c.lru.length ∧
  c.size ≤ MaxCacheSize ∧
  (∀ tr ∈ c.timers, tr.id < c.nextTimer)

/-- The bucket chains hold exactly the records of the recency list: the
recency list is a permutation of the chain contents (by key), and no key
is reachable through two chains (nor twice through one). -/
def chainsMatchLru (c : lruCache V) : Prop :=
  c.lru.Perm (allKeys c) ∧ (allKeys c).Nodup

/-- The value currently stored under a key, read the way the code reads
it: through `lookup` in the key's hash bucket. -/
def getVal? (c : lruCache V) (key : String) : Option V :=
  ((lookup c (hash c key) key).1).map (fun r => r.val)

/-- The capacity bound of an instance: the length of the bucket array and
the threshold `Set` evicts at — the package constant, for every instance. -/
def capacityOf (c : lruCache V) : Nat := MaxCacheSize

/-- Fold a list of `(key, value, ttl)` triples through `Set`. -/
def runSets (seed : String → Nat) (ops : List (String × V × Int)) : lruCache V :=
  ops.foldl (fun c op => Set c op.1 op.2.1 op.2.2) (NewCache V seed)

/-- `mustBeLocked`: `TryLock` succeeds exactly when the lock is free, and
then the code unlocks and panics; modelled as `Except.error`. -/
def mustBeLocked (locked : Bool) : Except String Unit :=
  if locked then Except.ok ()
  else Except.error "the code must be executed within a cache transaction"

/-- `lookup` as invoked with an explicit lock state: the `mustBeLocked`
assertion runs first. -/
def lookupChecked (locked : Bool) (c : lruCache V) (i : Fin MaxCacheSize)
    (key : String) :
    Except String (Option (record V) × Option (record V) × Option (record V)) :=
  match mustBeLocked locked with
  | Except.error e => Except.error e
  | Except.ok _ => Except.ok (lookup c i key)

/-- `delete` as invoked with an explicit lock state. -/
def deleteChecked (locked : Bool) (c : lruCache V) (idx : Fin MaxCacheSize)
    (key : String) : Except String (lruCache V) :=
  match mustBeLocked locked with
  | Except.error e => Except.error e
  | Except.ok _ => Except.ok (delete c idx key)

/-- One observable step of the system: a public `Get` or `Set`, or a TTL
timer elapsing. -/
inductive Step [Inhabited V] (c : lruCache V) : lruCache V → Prop
  | get (key : String) : Step c (Get c key).2.2
  | set (key : String) (value : V) (ttl : Int) : Step c (Set c key value ttl)
  | fire (id : Nat) : Step c (fireTimer c id)

/-- Any number of observable steps. -/
def Steps [Inhabited V] : lruCache V → lruCache V → Prop :=
  Relation.ReflTransGen Step

/-- Seed (hash function) used by the concrete witness states. -/
def seedW : String → Nat := fun s => s.length

/-- Five inserts that fill the cache: the keys spread over buckets
1, 2, 3, 4, 0 under `seedW`. -/
def opsW : List (String × Nat × Int) :=
  [("a", 1, 10), ("bb", 2, 10), ("ccc", 3, 10), ("dddd", 4, 10),
    ("eeeee", 5, 10)]

/-- A concrete full cache reached through the public API. -/
def cacheW : lruCache Nat := runSets seedW opsW

/-- A concrete cache with two records colliding in bucket 1. -/
def cacheW2 : lruCache Nat := runSets seedW [("a", 1, 10), ("f", 2, 10)]

/-- A state with an armed timer whose key is no longer stored: the
stale-timer scenario for idempotent deletion. -/
def staleW : lruCache Nat :=
  { size := 0, seed := seedW, lru := [], data := fun _ => [],
    timers := [⟨0, ⟨1, by decide⟩, "x", 5⟩], nextTimer := 1 }

/-- First step of the refresh race: `Set("k", 1, 1ns)` — a TTL so short
that the timer expires (launching its callback) before the refresh. -/
def raceC1 : lruCache Nat := Set (NewCache Nat seedW) "k" 1 1

/-- Second step of the refresh race: the refresh `Set("k", 2, 3600s)`
running while the first timer's callback is pending on the lock; its
`r.t.Stop()` returns `false` and stops nothing. -/
def raceC2 : lruCache Nat := Set raceC1 "k" 2 3600

/-! ## Arithmetic facts about the `uint64` counter -/

theorem U64_val : U64 = 18446744073709551616 := by norm_num [U64]

theorem inc64_eq_succ {n : Nat} (h : n + 1 < U64) : inc64 n = n + 1 :=
  Nat.mod_eq_of_lt h

theorem dec64_eq_pred {n : Nat} (h1 : 1 ≤ n) (h2 : n ≤ MaxCacheSize) :
    dec64 n = n - 1 := by
  have hU := U64_val
  have hM : MaxCacheSize = 5 := rfl
  unfold dec64
  have he : n + (U64 - 1) = U64 + (n - 1) := by omega
  rw [he, Nat.add_mod_left]
  exact Nat.mod_eq_of_lt (by omega)

/-! ## Reduction equations for the operations -/

theorem lookupGo_fst (key : String) (l : List (record V)) (a : Option (record V)) :
    (lookupGo key l a).1 = l.find? (fun r => r.key == key) := by
  induction l generalizing a with
  | nil => rfl
  | cons r rest ih =>
    by_cases h : r.key == key
    · simp [lookupGo, h, List.find?_cons_of_pos]
    · simp only [Bool.not_eq_true] at h
      simp [lookupGo, h, List.find?_cons_of_neg, ih]

theorem lookup_fst (c : lruCache V) (i : Fin MaxCacheSize) (key : String) :
    (lookup c i key).1 = (c.data i).find? (fun r => r.key == key) := by
  simp [lookup, lookupGo_fst]

theorem delete_none {c : lruCache V} {idx : Fin MaxCacheSize} {key : String}
    (h : (c.data idx).find? (fun r => r.key == key) = none) :
    delete c idx key = c := by
  unfold delete
  rw [lookup_fst, h]

theorem delete_some {c : lruCache V} {idx : Fin MaxCacheSize} {key : String}
    {r : record V} (h : (c.data idx).find? (fun r => r.key == key) = some r) :
    delete c idx key =
      { c with
        timers := c.timers.filter (fun tr => tr.id != r.t),
        data := Function.update c.data idx
          ((c.data idx).eraseP (fun x => x.key == key)),
        lru := c.lru.erase key,
        size := dec64 c.size } := by
  unfold delete
  rw [lookup_fst, h]

theorem Get_found [Inhabited V] {c : lruCache V} {key : String} {r : record V}
    (h : (c.data (hash c key)).find? (fun r => r.key == key) = some r) :
    Get c key =
      (r.val, true,
        { c with
          data := Function.update c.data (hash c key)
            (r :: (c.data (hash c key)).eraseP (fun x => x.key == key)),
          lru := key :: c.lru.erase key }) := by
  unfold Get
  dsimp only
  rw [lookup_fst, h]

theorem Get_miss [Inhabited V] {c : lruCache V} {key : String}
    (h : (c.data (hash c key)).find? (fun r => r.key == key) = none) :
    Get c key = (default, false, c) := by
  unfold Get
  dsimp only
  rw [lookup_fst, h]

theorem Set_found {c : lruCache V} {key : String} {r : record V}
    (value : V) (ttl : Int)
    (h : (c.data (hash c key)).find? (fun r => r.key == key) = some r) :
    Set c key value ttl =
      { c with
        data := Function.update c.data (hash c key)
          ({ r with val := value, t := c.nextTimer } ::
            (c.data (hash c key)).eraseP (fun x => x.key == key)),
        lru := key :: c.lru.erase key,
        timers := ⟨c.nextTimer, hash c key, key, ttl⟩ ::
          c.timers.filter (fun tr => tr.id != r.t),
        nextTimer := c.nextTimer + 1 } := by
  unfold Set
  dsimp only
  rw [lookup_fst, h]

theorem Set_miss {c : lruCache V} {key : String} (value : V) (ttl : Int)
    (h : (c.data (hash c key)).find? (fun r => r.key == key) = none) :
    Set c key value ttl = pushNew (evictIfFull c) (hash c key) key value ttl := by
  unfold Set
  dsimp only
  rw [lookup_fst, h]

/-! ## List-level helper lemmas -/

theorem find?_eraseP_ne (l : List (record V)) {k1 k2 : String} (h : k1 ≠ k2) :
    (l.eraseP (fun x => x.key == k2)).find? (fun x => x.key == k1)
      = l.find? (fun x => x.key == k1) := by
  induction l with
  | nil => rfl
  | cons r rest ih =>
    by_cases h2 : r.key == k2
    · have hrk : r.key = k2 := by simpa using h2
      have h1 : (r.key == k1) = false := by
        simp [hrk]
        exact fun he => h he.symm
      simp [List.eraseP_cons, h2, List.find?_cons_of_neg, h1]
    · simp only [Bool.not_eq_true] at h2
      by_cases h1 : r.key == k1
      · simp [List.eraseP_cons, h2, List.find?_cons_of_pos, h1]
      · simp only [Bool.not_eq_true] at h1
        simp [List.eraseP_cons, h2, List.find?_cons_of_neg, h1, ih]

theorem map_key_eraseP (l : List (record V)) (k : String) :
    (l.eraseP (fun x => x.key == k)).map (fun r => r.key)
      = (l.map (fun r => r.key)).erase k := by
  induction l with
  | nil => rfl
  | cons r rest ih =>
    by_cases h : r.key == k
    · have hrk : r.key = k := by simpa using h
      simp [List.eraseP_cons, h, List.erase_cons, hrk]
    · have h' : (r.key == k) = false := by simpa using h
      simp [List.eraseP_cons, h', List.erase_cons, ih]

theorem find?_eraseP_self (l : List (record V)) (k : String)
    (h : ((l.map (fun r => r.key)).Nodup)) :
    (l.eraseP (fun x => x.key == k)).find? (fun x => x.key == k) = none := by
  induction l with
  | nil => rfl
  | cons r rest ih =>
    rw [List.map_cons, List.nodup_cons] at h
    by_cases hk : r.key == k
    · have hrk : r.key = k := by simpa using hk
      simp only [List.eraseP_cons, hk, cond_true]
      refine List.find?_eq_none.mpr ?_
      intro x hx hxk
      have hxkey : x.key = k := by simpa using hxk
      exact h.1 (hrk ▸ hxkey ▸ List.mem_map_of_mem (fun r => r.key) hx)
    · have hk' : (r.key == k) = false := by simpa using hk
      simp [List.eraseP_cons, hk', List.find?_cons_of_neg, ih h.2]

theorem find?_none_of_sublist {l l' : List (record V)} {p : record V → Bool}
    (hs : l'.Sublist l) (h : l.find? p = none) : l'.find? p = none := by
  refine List.find?_eq_none.mpr ?_
  intro x hx
  exact List.find?_eq_none.mp h x (hs.subset hx)

theorem flatMap_congr_on {ι β : Type} (l : List ι) (f g : ι → List β)
    (h : ∀ i ∈ l, f i = g i) : l.flatMap f = l.flatMap g := by
  induction l with
  | nil => rfl
  | cons i rest ih =>
    simp only [List.flatMap_cons]
    rw [h i (List.mem_cons_self i rest), ih fun j hj => h j (List.mem_cons_of_mem i hj)]

/-- Decompose a `flatMap` over a duplicate-free index list at one index:
the images of the other indices form a common frame `A ++ _ ++ B` for any
function that agrees off `j`, and everything in the frame comes from some
other index. -/
theorem flatMap_eq_decomp {ι β : Type} (l : List ι) (f g : ι → List β) (j : ι)
    (hnd : l.Nodup) (hj : j ∈ l) (hg : ∀ i, i ≠ j → g i = f i) :
    ∃ A B, l.flatMap f = A ++ f j ++ B ∧ l.flatMap g = A ++ g j ++ B ∧
      ∀ b, (b ∈ A ∨ b ∈ B) → ∃ i, i ∈ l ∧ i ≠ j ∧ b ∈ f i := by
  induction l with
  | nil => cases hj
  | cons i rest ih =>
    rcases List.nodup_cons.mp hnd with ⟨hi, hrest⟩
    rcases List.mem_cons.mp hj with rfl | hj2
    · refine ⟨[], rest.flatMap f, by simp, ?_, ?_⟩
      · simp only [List.flatMap_cons, List.nil_append]
        rw [flatMap_congr_on rest g f fun x hx => hg x (fun he => hi (he ▸ hx))]
      · rintro b (hb | hb)
        · cases hb
        · rcases List.mem_flatMap.mp hb with ⟨i', hi', hbi⟩
          exact ⟨i', List.mem_cons_of_mem _ hi', fun he => hi (he ▸ hi'), hbi⟩
    · have hij : i ≠ j := fun he => hi (he ▸ hj2)
      rcases ih hrest hj2 with ⟨A, B, h1, h2, h3⟩
      refine ⟨f i ++ A, B, ?_, ?_, ?_⟩
      · simp [List.flatMap_cons, h1]
      · simp [List.flatMap_cons, h2, hg i hij]
      · rintro b (hb | hb)
        · rcases List.mem_append.mp hb with hb1 | hb2
          · exact ⟨i, List.mem_cons_self i rest, hij, hb1⟩
          · rcases h3 b (Or.inl hb2) with ⟨i', hi', hni', hbi'⟩
            exact ⟨i', List.mem_cons_of_mem _ hi', hni', hbi'⟩
        · rcases h3 b (Or.inr hb) with ⟨i', hi', hni', hbi'⟩
          exact ⟨i', List.mem_cons_of_mem _ hi', hni', hbi'⟩

/-! ## Decomposing `allKeys` at one bucket -/

theorem mem_allKeys {c : lruCache V} {k : String} :
    k ∈ allKeys c ↔ ∃ i, ∃ r ∈ c.data i, r.key = k := by
  simp [allKeys, List.mem_flatMap, List.mem_map, List.mem_finRange]

theorem allKeys_decomp (c : lruCache V) (j : Fin MaxCacheSize)
    (x : List (record V)) :
    ∃ A B, allKeys c = A ++ (c.data j).map (fun r => r.key) ++ B ∧
      (List.finRange MaxCacheSize).flatMap
        (fun i => (Function.update c.data j x i).map (fun r => r.key))
        = A ++ x.map (fun r => r.key) ++ B ∧
      ∀ b, (b ∈ A ∨ b ∈ B) → ∃ i, i ≠ j ∧ b ∈ (c.data i).map (fun r => r.key) := by
  obtain ⟨A, B, h1, h2, h3⟩ := flatMap_eq_decomp (List.finRange MaxCacheSize)
    (fun i => (c.data i).map (fun r => r.key))
    (fun i => (Function.update c.data j x i).map (fun r => r.key)) j
    (List.nodup_finRange _) (List.mem_finRange j)
    (fun i hij => by simp [Function.update_noteq hij])
  refine ⟨A, B, h1, ?_, ?_⟩
  · simpa [Function.update_same] using h2
  · intro b hb
    rcases h3 b hb with ⟨i, _, hij, hbi⟩
    exact ⟨i, hij, hbi⟩

theorem not_mem_frame {c : lruCache V}
    (hb : ∀ i, ∀ r ∈ c.data i, hash c r.key = i)
    {k : String} {j : Fin MaxCacheSize} (hhash : hash c k = j)
    {A B : List String}
    (hAB : ∀ b, (b ∈ A ∨ b ∈ B) →
      ∃ i, i ≠ j ∧ b ∈ (c.data i).map (fun r => r.key)) :
    k ∉ A ∧ k ∉ B := by
  have main : ∀ hk : k ∈ A ∨ k ∈ B, False := by
    intro hk
    rcases hAB k hk with ⟨i, hij, hmem⟩
    rcases List.mem_map.mp hmem with ⟨r, hr, hrk⟩
    exact hij (by rw [← (hb i r hr), hrk, hhash])
  exact ⟨fun hk => main (Or.inl hk), fun hk => main (Or.inr hk)⟩

theorem erase_frame {A m B : List String} {k : String}
    (hkA : k ∉ A) (hkm : k ∈ m) :
    (A ++ m ++ B).erase k = A ++ m.erase k ++ B := by
  rw [List.append_assoc, List.erase_append_right _ hkA,
    List.erase_append_left _ hkm, List.append_assoc]

/-! ## Preservation of well-formedness -/

theorem hash_congr {c c' : lruCache V} (h : c'.seed = c.seed) :
    hash c' = hash c := by
  funext s
  unfold hash
  exact Fin.ext (show c'.seed s % MaxCacheSize = c.seed s % MaxCacheSize by rw [h])

/-- Establish `WF` of an updated state whose seed is unchanged, with every
obligation phrased over the original state's `hash`. -/
theorem WF_mk {c : lruCache V} {size' : Nat} {lru' : List String}
    {data' : Fin MaxCacheSize → List (record V)} {timers' : List timerRec}
    {nt' : Nat}
    (hb' : ∀ i, ∀ r ∈ data' i, hash c r.key = i)
    (hnd' : ((List.finRange MaxCacheSize).flatMap
      (fun i => (data' i).map (fun r => r.key))).Nodup)
    (hperm' : lru'.Perm ((List.finRange MaxCacheSize).flatMap
      (fun i => (data' i).map (fun r => r.key))))
    (hsz' : size' = lru'.length)
    (hcap' : size' ≤ MaxCacheSize)
    (htm' : ∀ tr ∈ timers', tr.id < nt') :
    WF (lruCache.mk size' c.seed lru' data' timers' nt') := by
  have hh : hash (lruCache.mk size' c.seed lru' data' timers' nt' : lruCache V)
      = hash c := hash_congr rfl
  exact ⟨fun i r hr => hh.symm ▸ hb' i r hr, hnd', hperm', hsz', hcap', htm'⟩

theorem WF_delete {c : lruCache V} (hwf : WF c) (idx : Fin MaxCacheSize)
    (key : String) : WF (delete c idx key) := by
  obtain ⟨hb, hnd, hperm, hsz, hcap, htm⟩ := hwf
  cases hfind : (c.data idx).find? (fun r => r.key == key) with
  | none =>
    rw [delete_none hfind]
    exact ⟨hb, hnd, hperm, hsz, hcap, htm⟩
  | some r =>
    rw [delete_some hfind]
    have hrmem : r ∈ c.data idx := List.mem_of_find?_eq_some hfind
    have hrkey : r.key = key := by simpa using List.find?_some hfind
    have hhash : hash c key = idx := hrkey ▸ hb idx r hrmem
    have hkmem : key ∈ (c.data idx).map (fun r => r.key) :=
      hrkey ▸ List.mem_map_of_mem (fun r => r.key) hrmem
    obtain ⟨A, B, hA1, hA2, hAB⟩ :=
      allKeys_decomp c idx ((c.data idx).eraseP (fun x => x.key == key))
    obtain ⟨hkA, hkB⟩ := not_mem_frame hb hhash hAB
    have hchsub : ((c.data idx).eraseP (fun x => x.key == key)).Sublist
        (c.data idx) := List.eraseP_sublist _
    have hmemlru : key ∈ c.lru := hperm.mem_iff.mpr (by
      rw [hA1]
      exact List.mem_append.mpr (Or.inl (List.mem_append.mpr (Or.inr hkmem))))
    have hlen1 : 1 ≤ c.lru.length := List.length_pos.mpr
      (List.ne_nil_of_mem hmemlru)
    have hnewKeys :
        (List.finRange MaxCacheSize).flatMap
          (fun i => (Function.update c.data idx
            ((c.data idx).eraseP (fun x => x.key == key)) i).map
              (fun r => r.key))
          = (allKeys c).erase key := by
      rw [hA2, map_key_eraseP, hA1, erase_frame hkA hkmem]
    have h1s : 1 ≤ c.size := by rw [hsz]; exact hlen1
    have hd : dec64 c.size = c.size - 1 := dec64_eq_pred h1s hcap
    refine WF_mk ?_ ?_ ?_ ?_ ?_ ?_
    · intro i r' hr2
      by_cases hij : i = idx
      · subst hij
        rw [Function.update_same] at hr2
        exact hb i r' (hchsub.subset hr2)
      · rw [Function.update_noteq hij] at hr2
        exact hb i r' hr2
    · rw [hnewKeys]
      exact hnd.erase key
    · rw [hnewKeys]
      exact hperm.erase key
    · rw [hd, List.length_erase_of_mem hmemlru, hsz]
    · rw [hd]
      omega
    · intro tr htr
      exact htm tr (List.mem_of_mem_filter htr)

/-- Bring-to-top (the shared move-to-front of `Get` hits and `Set`
refreshes) preserves well-formedness, for any replacement record carrying
the same key and any refreshed timer state. -/
theorem WF_promote {c : lruCache V} {key : String} {r r' : record V}
    {tms : List timerRec} {nt : Nat} (hwf : WF c)
    (hfind : (c.data (hash c key)).find? (fun x => x.key == key) = some r)
    (hkey : r'.key = key)
    (htm' : ∀ tr ∈ tms, tr.id < nt) :
    WF (lruCache.mk c.size c.seed (key :: c.lru.erase key)
      (Function.update c.data (hash c key)
        (r' :: (c.data (hash c key)).eraseP (fun x => x.key == key)))
      tms nt) := by
  obtain ⟨hb, hnd, hperm, hsz, hcap, htm⟩ := hwf
  have hrmem : r ∈ c.data (hash c key) := List.mem_of_find?_eq_some hfind
  have hrkey : r.key = key := by simpa using List.find?_some hfind
  have hkmem : key ∈ (c.data (hash c key)).map (fun x => x.key) :=
    List.mem_map.mpr ⟨r, hrmem, hrkey⟩
  have hchsub : ((c.data (hash c key)).eraseP (fun x => x.key == key)).Sublist
      (c.data (hash c key)) := List.eraseP_sublist _
  obtain ⟨A, B, hA1, hA2, hAB⟩ := allKeys_decomp c (hash c key)
    (r' :: (c.data (hash c key)).eraseP (fun x => x.key == key))
  obtain ⟨hkA, hkB⟩ := not_mem_frame hb rfl hAB
  rw [List.map_cons, map_key_eraseP, hkey] at hA2
  have hkAll : key ∈ allKeys c := by
    rw [hA1]
    exact List.mem_append.mpr (Or.inl (List.mem_append.mpr (Or.inr hkmem)))
  have hmemlru : key ∈ c.lru := hperm.mem_iff.mpr hkAll
  have hlen1 : 1 ≤ c.lru.length := List.length_pos.mpr
    (List.ne_nil_of_mem hmemlru)
  have he : (allKeys c).erase key
      = A ++ ((c.data (hash c key)).map (fun x => x.key)).erase key ++ B := by
    rw [hA1]
    exact erase_frame hkA hkmem
  have hflat_perm : ((List.finRange MaxCacheSize).flatMap
      (fun i => (Function.update c.data (hash c key)
        (r' :: (c.data (hash c key)).eraseP (fun x => x.key == key)) i).map
          (fun x => x.key))).Perm (key :: (allKeys c).erase key) := by
    rw [hA2, he]
    have h1 : A ++ (key ::
        ((c.data (hash c key)).map (fun x => x.key)).erase key) ++ B
        = A ++ key ::
          (((c.data (hash c key)).map (fun x => x.key)).erase key ++ B) := by
      simp [List.append_assoc]
    rw [h1]
    simpa [List.append_assoc] using
      (List.perm_middle :
        (A ++ key :: (((c.data (hash c key)).map (fun x => x.key)).erase key
          ++ B)).Perm
        (key :: (A ++ (((c.data (hash c key)).map (fun x => x.key)).erase key
          ++ B))))
  have hnd2 : (key :: (allKeys c).erase key).Nodup :=
    (List.perm_cons_erase hkAll).nodup hnd
  refine WF_mk ?_ ?_ ?_ ?_ hcap htm'
  · intro i r'' hr2
    by_cases hij : i = hash c key
    · subst hij
      rw [Function.update_same] at hr2
      rcases List.mem_cons.mp hr2 with rfl | hr3
      · rw [hkey]
      · exact hb _ r'' (hchsub.subset hr3)
    · rw [Function.update_noteq hij] at hr2
      exact hb i r'' hr2
  · exact hflat_perm.symm.nodup hnd2
  · exact ((hperm.erase key).cons key).trans hflat_perm.symm
  · rw [List.length_cons, List.length_erase_of_mem hmemlru]
    omega

theorem delete_seed (c : lruCache V) (idx : Fin MaxCacheSize) (key : String) :
    (delete c idx key).seed = c.seed := by
  cases hfind : (c.data idx).find? (fun r => r.key == key) with
  | none => rw [delete_none hfind]
  | some r => rw [delete_some hfind]

theorem evictIfFull_seed (c : lruCache V) : (evictIfFull c).seed = c.seed := by
  unfold evictIfFull
  by_cases h : c.size = MaxCacheSize
  · rw [if_pos h]
    cases hms : c.lru.getLast? with
    | none => rfl
    | some ek => exact delete_seed c (hash c ek) ek
  · rw [if_neg h]

theorem find?_delete_none {c : lruCache V} {idx : Fin MaxCacheSize}
    {dkey : String} {i : Fin MaxCacheSize} {k : String}
    (h : (c.data i).find? (fun x => x.key == k) = none) :
    ((delete c idx dkey).data i).find? (fun x => x.key == k) = none := by
  cases hfind : (c.data idx).find? (fun r => r.key == dkey) with
  | none =>
    rw [delete_none hfind]
    exact h
  | some r =>
    rw [delete_some hfind]
    show ((Function.update c.data idx
      ((c.data idx).eraseP (fun x => x.key == dkey)) i).find?
        (fun x => x.key == k)) = none
    by_cases hij : i = idx
    · subst hij
      rw [Function.update_same]
      exact find?_none_of_sublist (List.eraseP_sublist _) h
    · rw [Function.update_noteq hij]
      exact h

theorem find?_evictIfFull_none {c : lruCache V} {i : Fin MaxCacheSize}
    {k : String}
    (h : (c.data i).find? (fun x => x.key == k) = none) :
    ((evictIfFull c).data i).find? (fun x => x.key == k) = none := by
  unfold evictIfFull
  by_cases h5 : c.size = MaxCacheSize
  · rw [if_pos h5]
    cases hms : c.lru.getLast? with
    | none => exact h
    | some ek => exact find?_delete_none h
  · rw [if_neg h5]
    exact h

theorem WF_evictIfFull {c : lruCache V} (hwf : WF c) : WF (evictIfFull c) := by
  unfold evictIfFull
  by_cases h : c.size = MaxCacheSize
  · rw [if_pos h]
    cases hms : c.lru.getLast? with
    | none => exact hwf
    | some ek => exact WF_delete hwf (hash c ek) ek
  · rw [if_neg h]
    exact hwf

theorem mem_of_getLast? {α : Type} {l : List α} {a : α}
    (h : l.getLast? = some a) : a ∈ l := by
  have hne : l ≠ [] := by
    intro he
    rw [he] at h
    simp at h
  rw [List.getLast?_eq_getLast l hne] at h
  cases h
  exact List.getLast_mem hne

theorem evictIfFull_not_full {c : lruCache V} (h : c.size ≠ MaxCacheSize) :
    evictIfFull c = c := by
  unfold evictIfFull
  rw [if_neg h]

theorem evictIfFull_full_eq {c : lruCache V} {ek : String}
    (h : c.size = MaxCacheSize) (hvict : c.lru.getLast? = some ek) :
    evictIfFull c = delete c (hash c ek) ek := by
  unfold evictIfFull
  rw [if_pos h, hvict]

/-- A full well-formed cache really loses one record on eviction. -/
theorem evictIfFull_size_full {c : lruCache V} (hwf : WF c)
    (h : c.size = MaxCacheSize) :
    (evictIfFull c).size = MaxCacheSize - 1 := by
  obtain ⟨hb, hnd, hperm, hsz, hcap, htm⟩ := hwf
  unfold evictIfFull
  rw [if_pos h]
  cases hms : c.lru.getLast? with
  | none =>
    rw [List.getLast?_eq_none_iff] at hms
    rw [hms] at hsz
    simp at hsz
    rw [h] at hsz
    exact absurd hsz (by decide)
  | some ek =>
    have hekmem : ek ∈ c.lru := mem_of_getLast? hms
    have hekAll : ek ∈ allKeys c := hperm.mem_iff.mp hekmem
    rcases mem_allKeys.mp hekAll with ⟨j, r, hr, hrk⟩
    have hj : j = hash c ek := by rw [← hb j r hr, hrk]
    subst hj
    cases hfind : (c.data (hash c ek)).find? (fun x => x.key == ek) with
    | none =>
      exact absurd (List.find?_eq_none.mp hfind r hr) (by simp [hrk])
    | some r' =>
      show (delete c (hash c ek) ek).size = MaxCacheSize - 1
      rw [delete_some hfind]
      show dec64 c.size = MaxCacheSize - 1
      rw [dec64_eq_pred (by rw [h]; decide) hcap, h]

theorem evictIfFull_size_lt {c : lruCache V} (hwf : WF c) :
    (evictIfFull c).size < MaxCacheSize := by
  by_cases h : c.size = MaxCacheSize
  · rw [evictIfFull_size_full hwf h]
    decide
  · rw [evictIfFull_not_full h]
    exact lt_of_le_of_ne hwf.2.2.2.2.1 h

theorem WF_pushNew {c : lruCache V} (hwf : WF c) {key : String} {value : V}
    {ttl : Int} {i : Fin MaxCacheSize} (hi : i = hash c key)
    (habs : (c.data i).find? (fun x => x.key == key) = none)
    (hlt : c.size < MaxCacheSize) :
    WF (pushNew c i key value ttl) := by
  obtain ⟨hb, hnd, hperm, hsz, hcap, htm⟩ := hwf
  unfold pushNew
  have hkeyabs : key ∉ allKeys c := by
    intro hmem
    rcases mem_allKeys.mp hmem with ⟨j, r, hr, hrk⟩
    have hj : j = hash c key := by rw [← hb j r hr, hrk]
    rw [hj, ← hi] at hr
    have : (c.data i).find? (fun x => x.key == key) ≠ none := by
      intro hnone
      exact absurd (by simp [hrk] : (fun x => x.key == key) r = true)
        (by simpa using List.find?_eq_none.mp hnone r hr)
    exact this habs
  obtain ⟨A, B, hA1, hA2, hAB⟩ := allKeys_decomp c i
    ((⟨key, value, c.nextTimer⟩ : record V) :: c.data i)
  rw [List.map_cons] at hA2
  have hflat_perm : ((List.finRange MaxCacheSize).flatMap
      (fun j => (Function.update c.data i
        ((⟨key, value, c.nextTimer⟩ : record V) :: c.data i) j).map
          (fun x => x.key))).Perm (key :: allKeys c) := by
    rw [hA2, hA1]
    have h1 : A ++ (key :: (c.data i).map (fun x => x.key)) ++ B
        = A ++ key :: ((c.data i).map (fun x => x.key) ++ B) := by
      simp [List.append_assoc]
    rw [h1]
    simpa [List.append_assoc] using
      (List.perm_middle :
        (A ++ key :: ((c.data i).map (fun x => x.key) ++ B)).Perm
        (key :: (A ++ ((c.data i).map (fun x => x.key) ++ B))))
  have hinc : inc64 c.size = c.size + 1 := by
    have hU := U64_val
    have hM : MaxCacheSize = 5 := rfl
    exact inc64_eq_succ (by omega)
  refine WF_mk ?_ ?_ ?_ ?_ ?_ ?_
  · intro j r'' hr2
    by_cases hij : j = i
    · subst hij
      rw [Function.update_same] at hr2
      rcases List.mem_cons.mp hr2 with rfl | hr3
      · exact hi.symm
      · exact hb _ r'' hr3
    · rw [Function.update_noteq hij] at hr2
      exact hb j r'' hr2
  · exact hflat_perm.symm.nodup (List.nodup_cons.mpr ⟨hkeyabs, hnd⟩)
  · exact (hperm.cons key).trans hflat_perm.symm
  · rw [hinc, List.length_cons]
    omega
  · rw [hinc]
    omega
  · intro tr htr
    rcases List.mem_cons.mp htr with rfl | htr2
    · exact Nat.lt_succ_self _
    · exact Nat.lt_trans (htm tr htr2) (by omega)

theorem WF_Get [Inhabited V] {c : lruCache V} (hwf : WF c) (key : String) :
    WF (Get c key).2.2 := by
  cases hfind : (c.data (hash c key)).find? (fun r => r.key == key) with
  | none =>
    rw [Get_miss hfind]
    exact hwf
  | some r =>
    rw [Get_found hfind]
    exact WF_promote hwf hfind (by simpa using List.find?_some hfind) hwf.2.2.2.2.2

theorem WF_Set {c : lruCache V} (hwf : WF c) (key : String) (value : V)
    (ttl : Int) : WF (Set c key value ttl) := by
  cases hfind : (c.data (hash c key)).find? (fun r => r.key == key) with
  | some r =>
    rw [Set_found value ttl hfind]
    refine WF_promote hwf hfind (by simpa using List.find?_some hfind) ?_
    intro tr htr
    rcases List.mem_cons.mp htr with rfl | htr2
    · exact Nat.lt_succ_self _
    · exact Nat.lt_trans (hwf.2.2.2.2.2 tr (List.mem_of_mem_filter htr2))
        (by omega)
  | none =>
    rw [Set_miss value ttl hfind]
    have hwf1 := WF_evictIfFull hwf
    have hlt := evictIfFull_size_lt hwf
    have hseed := evictIfFull_seed c
    have hhash : hash (evictIfFull c) key = hash c key := by
      rw [hash_congr hseed]
    exact WF_pushNew hwf1 hhash.symm (find?_evictIfFull_none hfind) hlt

theorem WF_fireTimer {c : lruCache V} (hwf : WF c) (id : Nat) :
    WF (fireTimer c id) := by
  unfold fireTimer
  cases hf : c.timers.find? (fun tr => tr.id == id) with
  | none => exact hwf
  | some tr =>
    unfold deleteWithLock
    apply WF_delete
    exact WF_mk hwf.1 hwf.2.1 hwf.2.2.1 hwf.2.2.2.1 hwf.2.2.2.2.1
      (fun tr' htr' => hwf.2.2.2.2.2 tr' (List.mem_of_mem_filter htr'))

theorem WF_NewCache (seedF : String → Nat) : WF (NewCache V seedF) := by
  have hak : allKeys (NewCache V seedF) = [] := by
    simp [allKeys, NewCache]
  refine ⟨?_, ?_, ?_, rfl, ?_, ?_⟩
  · intro i r hr
    cases hr
  · rw [hak]
    exact List.nodup_nil
  · rw [hak]
    exact List.Perm.nil
  · exact Nat.zero_le _
  · intro tr htr
    cases htr

theorem WF_runSets (seedF : String → Nat) (ops : List (String × V × Int)) :
    WF (runSets seedF ops) := by
  unfold runSets
  have main : ∀ c0 : lruCache V, WF c0 →
      WF (ops.foldl (fun c op => Set c op.1 op.2.1 op.2.2) c0) := by
    induction ops with
    | nil => exact fun c0 h => h
    | cons op rest ih =>
      intro c0 h0
      exact ih _ (WF_Set h0 op.1 op.2.1 op.2.2)
  exact main _ (WF_NewCache seedF)

/-! ## Evolution of the timer state across operations -/

theorem delete_timers_mem {c : lruCache V} {idx : Fin MaxCacheSize}
    {key : String} {tr : timerRec} (h : tr ∈ (delete c idx key).timers) :
    tr ∈ c.timers := by
  cases hfind : (c.data idx).find? (fun r => r.key == key) with
  | none =>
    rw [delete_none hfind] at h
    exact h
  | some r =>
    rw [delete_some hfind] at h
    exact List.mem_of_mem_filter h

theorem delete_nextTimer (c : lruCache V) (idx : Fin MaxCacheSize)
    (key : String) : (delete c idx key).nextTimer = c.nextTimer := by
  cases hfind : (c.data idx).find? (fun r => r.key == key) with
  | none => rw [delete_none hfind]
  | some r => rw [delete_some hfind]

theorem evictIfFull_timers_mem {c : lruCache V} {tr : timerRec}
    (h : tr ∈ (evictIfFull c).timers) : tr ∈ c.timers := by
  unfold evictIfFull at h
  by_cases h5 : c.size = MaxCacheSize
  · rw [if_pos h5] at h
    cases hms : c.lru.getLast? with
    | none => rw [hms] at h; exact h
    | some ek => rw [hms] at h; exact delete_timers_mem h
  · rw [if_neg h5] at h
    exact h

theorem evictIfFull_nextTimer (c : lruCache V) :
    (evictIfFull c).nextTimer = c.nextTimer := by
  unfold evictIfFull
  by_cases h5 : c.size = MaxCacheSize
  · rw [if_pos h5]
    cases hms : c.lru.getLast? with
    | none => rfl
    | some ek => exact delete_nextTimer c (hash c ek) ek
  · rw [if_neg h5]

theorem Get_timers [Inhabited V] (c : lruCache V) (key : String) :
    ((Get c key).2.2).timers = c.timers := by
  cases hfind : (c.data (hash c key)).find? (fun r => r.key == key) with
  | none => rw [Get_miss hfind]
  | some r => rw [Get_found hfind]

theorem Get_nextTimer [Inhabited V] (c : lruCache V) (key : String) :
    ((Get c key).2.2).nextTimer = c.nextTimer := by
  cases hfind : (c.data (hash c key)).find? (fun r => r.key == key) with
  | none => rw [Get_miss hfind]
  | some r => rw [Get_found hfind]

theorem Set_nextTimer (c : lruCache V) (key : String) (value : V) (ttl : Int) :
    (Set c key value ttl).nextTimer = c.nextTimer + 1 := by
  cases hfind : (c.data (hash c key)).find? (fun r => r.key == key) with
  | some r => rw [Set_found value ttl hfind]
  | none =>
    rw [Set_miss value ttl hfind]
    show (evictIfFull c).nextTimer + 1 = c.nextTimer + 1
    rw [evictIfFull_nextTimer]

theorem Set_seed (c : lruCache V) (key : String) (value : V) (ttl : Int) :
    (Set c key value ttl).seed = c.seed := by
  cases hfind : (c.data (hash c key)).find? (fun r => r.key == key) with
  | some r => rw [Set_found value ttl hfind]
  | none =>
    rw [Set_miss value ttl hfind]
    exact evictIfFull_seed c

theorem Set_timers_mem {c : lruCache V} {key : String} {value : V} {ttl : Int}
    {tr : timerRec} (h : tr ∈ (Set c key value ttl).timers) :
    tr ∈ c.timers ∨ tr.id = c.nextTimer := by
  cases hfind : (c.data (hash c key)).find? (fun r => r.key == key) with
  | some r =>
    rw [Set_found value ttl hfind] at h
    rcases List.mem_cons.mp h with rfl | h2
    · exact Or.inr rfl
    · exact Or.inl (List.mem_of_mem_filter h2)
  | none =>
    rw [Set_miss value ttl hfind] at h
    rcases List.mem_cons.mp h with rfl | h2
    · exact Or.inr (evictIfFull_nextTimer c)
    · exact Or.inl (evictIfFull_timers_mem h2)

theorem fireTimer_timers_mem {c : lruCache V} {id : Nat} {tr : timerRec}
    (h : tr ∈ (fireTimer c id).timers) : tr ∈ c.timers := by
  unfold fireTimer at h
  cases hf : c.timers.find? (fun tr => tr.id == id) with
  | none => rw [hf] at h; exact h
  | some tr2 =>
    rw [hf] at h
    unfold deleteWithLock at h
    exact List.mem_of_mem_filter (delete_timers_mem h)

theorem fireTimer_nextTimer (c : lruCache V) (id : Nat) :
    (fireTimer c id).nextTimer = c.nextTimer := by
  unfold fireTimer
  cases hf : c.timers.find? (fun tr => tr.id == id) with
  | none => rfl
  | some tr =>
    unfold deleteWithLock
    rw [delete_nextTimer]

theorem step_timers [Inhabited V] {a b : lruCache V} (h : Step a b) :
    (∀ tr ∈ b.timers, tr ∈ a.timers ∨ tr.id = a.nextTimer) ∧
      a.nextTimer ≤ b.nextTimer := by
  cases h with
  | get key =>
    refine ⟨?_, le_of_eq (Get_nextTimer a key).symm⟩
    intro tr htr
    rw [Get_timers a key] at htr
    exact Or.inl htr
  | set key value ttl =>
    refine ⟨fun tr htr => Set_timers_mem htr, ?_⟩
    rw [Set_nextTimer]
    omega
  | fire id =>
    exact ⟨fun tr htr => Or.inl (fireTimer_timers_mem htr),
      le_of_eq (fireTimer_nextTimer a id).symm⟩

/-- A timer id that is disarmed and below the fresh-id counter stays
disarmed (and below the counter) across any number of steps: no future
operation can ever re-arm it. -/
theorem unarmed_forever [Inhabited V] {a b : lruCache V} {id : Nat}
    (h : Steps a b) (ha1 : ∀ tr ∈ a.timers, tr.id ≠ id)
    (ha2 : id < a.nextTimer) :
    (∀ tr ∈ b.timers, tr.id ≠ id) ∧ id < b.nextTimer := by
  induction h with
  | refl => exact ⟨ha1, ha2⟩
  | tail hsteps hstep ih =>
    obtain ⟨ih1, ih2⟩ := ih
    obtain ⟨hmem, hmono⟩ := step_timers hstep
    refine ⟨?_, lt_of_lt_of_le ih2 hmono⟩
    intro tr htr
    rcases hmem tr htr with h1 | h2
    · exact ih1 tr h1
    · omega

/-- A timer id that no armed timer carries cannot fire: `fireTimer` is the
identity. -/
theorem fireTimer_noop {c : lruCache V} {id : Nat}
    (h : ∀ tr ∈ c.timers, tr.id ≠ id) : fireTimer c id = c := by
  unfold fireTimer
  have hf : c.timers.find? (fun tr => tr.id == id) = none :=
    List.find?_eq_none.mpr (fun tr htr => by simpa using h tr htr)
  rw [hf]

/-- Every `Set` leaves the record it wrote at the head of the key's
bucket, carrying the fresh timer id, and bumps the fresh-id counter. -/
theorem Set_bucket (c : lruCache V) (key : String) (value : V) (ttl : Int) :
    ∃ rest, (Set c key value ttl).data (hash c key)
        = (⟨key, value, c.nextTimer⟩ : record V) :: rest := by
  cases hfind : (c.data (hash c key)).find? (fun r => r.key == key) with
  | some r =>
    rw [Set_found value ttl hfind]
    have hrkey : r.key = key := by simpa using List.find?_some hfind
    refine ⟨(c.data (hash c key)).eraseP (fun x => x.key == key), ?_⟩
    show Function.update c.data (hash c key) _ (hash c key) = _
    rw [Function.update_same]
    have hrec : ({ r with val := value, t := c.nextTimer } : record V)
        = ⟨key, value, c.nextTimer⟩ := by rw [← hrkey]
    rw [hrec]
  | none =>
    rw [Set_miss value ttl hfind]
    refine ⟨(evictIfFull c).data (hash c key), ?_⟩
    show Function.update (evictIfFull c).data (hash c key) _ (hash c key) = _
    rw [Function.update_same, evictIfFull_nextTimer]

/-! ## Per-bucket facts and the read-back helper -/

theorem bucketKeys_nodup {c : lruCache V} (hnd : (allKeys c).Nodup)
    (j : Fin MaxCacheSize) : ((c.data j).map (fun r => r.key)).Nodup := by
  obtain ⟨A, B, hA1, _, _⟩ := allKeys_decomp c j (c.data j)
  rw [hA1] at hnd
  exact (List.nodup_append.mp (List.nodup_append.mp hnd).1).2.1

theorem getVal?_eq (c : lruCache V) (x : String) :
    getVal? c x
      = ((c.data (hash c x)).find? (fun r => r.key == x)).map
          (fun r => r.val) := by
  unfold getVal?
  rw [lookup_fst]

/-- Directly after any `Set`, a `Get` of the same key hits the record the
`Set` wrote and returns the written value. -/
theorem Get_after_Set [Inhabited V] (c : lruCache V) (key : String)
    (value : V) (ttl : Int) :
    (Get (Set c key value ttl) key).1 = value ∧
      (Get (Set c key value ttl) key).2.1 = true := by
  obtain ⟨rest, hhead⟩ := Set_bucket c key value ttl
  have hseed := Set_seed c key value ttl
  have hhash : hash (Set c key value ttl) key = hash c key := by
    rw [hash_congr hseed]
  have hfind : ((Set c key value ttl).data
      (hash (Set c key value ttl) key)).find? (fun r => r.key == key)
        = some ⟨key, value, c.nextTimer⟩ := by
    rw [hhash, hhead]
    exact List.find?_cons_of_pos _ (by simp)
  rw [Get_found hfind]
  exact ⟨rfl, rfl⟩

/-- How `Set` changes `size`, by branch. -/
theorem Set_size_spec {c : lruCache V} (hwf : WF c) (k : String) (v : V)
    (ttl : Int) :
    ((c.data (hash c k)).find? (fun r => r.key == k) ≠ none →
      (Set c k v ttl).size = c.size) ∧
    ((c.data (hash c k)).find? (fun r => r.key == k) = none →
      c.size < MaxCacheSize → (Set c k v ttl).size = c.size + 1) ∧
    ((c.data (hash c k)).find? (fun r => r.key == k) = none →
      c.size = MaxCacheSize → (Set c k v ttl).size = MaxCacheSize) := by
  refine ⟨?_, ?_, ?_⟩
  · intro hne
    cases hfind : (c.data (hash c k)).find? (fun r => r.key == k) with
    | none => exact absurd hfind hne
    | some r => rw [Set_found v ttl hfind]
  · intro hfind hlt
    rw [Set_miss v ttl hfind]
    show inc64 (evictIfFull c).size = c.size + 1
    rw [evictIfFull_not_full (by omega)]
    have hU := U64_val
    have hM : MaxCacheSize = 5 := rfl
    exact inc64_eq_succ (by omega)
  · intro hfind hfull
    rw [Set_miss v ttl hfind]
    show inc64 (evictIfFull c).size = MaxCacheSize
    rw [evictIfFull_size_full hwf hfull]
    decide

/-- Eviction exactness: a `Set` of an absent key into a full, well-formed
cache removes the back-of-recency-list victim and nothing else. -/
theorem evict_exact {c : lruCache V} (k : String) (v : V) (ttl : Int)
    (ek : String) (hwf : WF c) (hfull : c.size = MaxCacheSize)
    (habs : (c.data (hash c k)).find? (fun r => r.key == k) = none)
    (hvict : c.lru.getLast? = some ek) :
    getVal? (Set c k v ttl) ek = none ∧
    getVal? (Set c k v ttl) k = some v ∧
    (∀ k2, k2 ≠ ek → k2 ≠ k → getVal? (Set c k v ttl) k2 = getVal? c k2) := by
  obtain ⟨hb, hnd, hperm, hsz, hcap, htm⟩ := hwf
  -- the victim is stored in its hash bucket
  have hekmem : ek ∈ c.lru := mem_of_getLast? hvict
  have hekAll : ek ∈ allKeys c := hperm.mem_iff.mp hekmem
  obtain ⟨j, rv, hrv, hrvk⟩ := mem_allKeys.mp hekAll
  have hj : j = hash c ek := by rw [← hb j rv hrv, hrvk]
  subst hj
  obtain ⟨rv', hfind_ek⟩ :
      ∃ r', (c.data (hash c ek)).find? (fun x => x.key == ek) = some r' := by
    cases hf : (c.data (hash c ek)).find? (fun x => x.key == ek) with
    | none => exact absurd (List.find?_eq_none.mp hf rv hrv) (by simp [hrvk])
    | some r' => exact ⟨r', rfl⟩
  have hkne : k ≠ ek := by
    intro he
    rw [he] at habs
    rw [habs] at hfind_ek
    exact Option.noConfusion hfind_ek
  have hbnd := bucketKeys_nodup hnd (hash c ek)
  -- reduce `Set` to nested updates over the original state
  have hset : Set c k v ttl = pushNew (evictIfFull c) (hash c k) k v ttl :=
    Set_miss v ttl habs
  have hevict : evictIfFull c = delete c (hash c ek) ek :=
    evictIfFull_full_eq hfull hvict
  have hdel := delete_some hfind_ek
  have hseedSet : (Set c k v ttl).seed = c.seed := Set_seed c k v ttl
  have hhashSet : ∀ s, hash (Set c k v ttl) s = hash c s := fun s => by
    rw [hash_congr hseedSet]
  have hdata : (Set c k v ttl).data
      = Function.update
          (Function.update c.data (hash c ek)
            ((c.data (hash c ek)).eraseP (fun x => x.key == ek)))
          (hash c k)
          ((⟨k, v, c.nextTimer⟩ : record V) ::
            (Function.update c.data (hash c ek)
              ((c.data (hash c ek)).eraseP (fun x => x.key == ek)))
              (hash c k)) := by
    rw [hset, hevict, hdel]
    rfl
  refine ⟨?_, ?_, ?_⟩
  · -- the victim key is gone
    rw [getVal?_eq, hhashSet, hdata]
    by_cases hvi : hash c ek = hash c k
    · rw [hvi, Function.update_same, List.find?_cons_of_neg _ (by simp [hkne]),
        ← hvi, Function.update_same, find?_eraseP_self _ _ hbnd]
      rfl
    · rw [Function.update_noteq hvi, Function.update_same,
        find?_eraseP_self _ _ hbnd]
      rfl
  · -- the new key is present with the new value
    rw [getVal?_eq, hhashSet, hdata, Function.update_same,
      List.find?_cons_of_pos _ (by simp)]
    rfl
  · -- every other key is untouched
    intro k2 hk2e hk2k
    rw [getVal?_eq, getVal?_eq, hhashSet, hdata]
    by_cases h2i : hash c k2 = hash c k
    · rw [h2i, Function.update_same,
        List.find?_cons_of_neg _ (by simp [Ne.symm hk2k])]
      by_cases hiv : hash c k = hash c ek
      · rw [hiv, Function.update_same, find?_eraseP_ne _ hk2e, ← hiv, ← h2i]
      · rw [Function.update_noteq hiv, ← h2i]
    · rw [Function.update_noteq h2i]
      by_cases h2v : hash c k2 = hash c ek
      · rw [h2v, Function.update_same, find?_eraseP_ne _ hk2e, ← h2v]
      · rw [Function.update_noteq h2v]

/-! ## The claims -/

/-- C1: for every well-formed cache state with `size` equal to the
capacity, a `Set` of an absent key removes exactly the record at the back
of the recency list — the globally least-recently-touched key — and no
other record: afterwards the victim key is absent, the new key is present
with the new value, and every other key reads back unchanged. -/
theorem C1_eviction_removes_exactly_victim (c : lruCache V) (k : String)
    (v : V) (ttl : Int) (ek : String) (hwf : WF c)
    (hfull : c.size = MaxCacheSize)
    (habs : (lookup c (hash c k) k).1 = none)
    (hvict : c.lru.getLast? = some ek) :
    getVal? (Set c k v ttl) ek = none ∧
    getVal? (Set c k v ttl) k = some v ∧
    ∀ k2, k2 ≠ ek → k2 ≠ k → getVal? (Set c k v ttl) k2 = getVal? c k2 := by
  rw [lookup_fst] at habs
  exact evict_exact k v ttl ek hwf hfull habs hvict

/-- Witness for C1: the full five-key cache evicts its oldest key `"a"`
(which lives in the same bucket as the inserted key) and only that key. -/
theorem C1_witness :
    getVal? (Set cacheW "ffffff" 6 10) "a" = none ∧
    getVal? (Set cacheW "ffffff" 6 10) "ffffff" = some 6 ∧
    getVal? (Set cacheW "ffffff" 6 10) "bb" = getVal? cacheW "bb" := by
  obtain ⟨h1, h2, h3⟩ := C1_eviction_removes_exactly_victim cacheW "ffffff" 6 10
    "a" (WF_runSets seedW opsW) (by rfl) (by rfl) (by rfl)
  exact ⟨h1, h2, h3 "bb" (by decide) (by decide)⟩

/-- C2: along every sequence of `Set` calls from a fresh cache,
`0 ≤ size ≤ MaxCacheSize` holds after each call; a refresh leaves `size`
unchanged, an insert below capacity increments it by one, and the
evict-then-insert path leaves it equal to the capacity. -/
theorem C2_capacity_invariant (seedF : String → Nat)
    (ops : List (String × V × Int)) (k : String) (v : V) (ttl : Int) :
    (runSets seedF ops).size ≤ MaxCacheSize ∧
    (((runSets seedF ops).data (hash (runSets seedF ops) k)).find?
        (fun r => r.key == k) ≠ none →
      (Set (runSets seedF ops) k v ttl).size = (runSets seedF ops).size) ∧
    (((runSets seedF ops).data (hash (runSets seedF ops) k)).find?
        (fun r => r.key == k) = none →
      (runSets seedF ops).size < MaxCacheSize →
      (Set (runSets seedF ops) k v ttl).size = (runSets seedF ops).size + 1) ∧
    (((runSets seedF ops).data (hash (runSets seedF ops) k)).find?
        (fun r => r.key == k) = none →
      (runSets seedF ops).size = MaxCacheSize →
      (Set (runSets seedF ops) k v ttl).size = MaxCacheSize) := by
  have hwf := WF_runSets seedF ops
  obtain ⟨ha, hb2, hc2⟩ := Set_size_spec hwf k v ttl
  exact ⟨hwf.2.2.2.2.1, ha, hb2, hc2⟩

/-- Witness for C2: the five-insert run is at capacity, and a sixth
insert of a fresh key still leaves `size = MaxCacheSize`. -/
theorem C2_witness :
    cacheW.size ≤ MaxCacheSize ∧
    (Set cacheW "ffffff" 6 10).size = MaxCacheSize := by
  obtain ⟨h1, _, _, h4⟩ := C2_capacity_invariant seedW opsW "ffffff" 6 10
  exact ⟨h1, h4 (by rfl) (by rfl)⟩

/-- The timely half of the refresh-timer story: when `Set k v2 ttl2`
refreshes the key written by an earlier `Set k v1 ttl1` *while the
earlier timer is still armed*, `r.t.Stop()` disarms it: no timer with its
id remains armed, that id can never elapse again along any future
sequence of steps (`fireTimer` with it is the identity), and `Get k`
returns `(v2, true)`.  This does not cover a callback already launched
at expiry (`firePending`), which `Stop` cannot reach. -/
theorem refresh_disarms_armed_timer [Inhabited V] (c0 : lruCache V)
    (k : String) (v1 v2 : V) (ttl1 ttl2 : Int) :
    (∀ tr ∈ (Set (Set c0 k v1 ttl1) k v2 ttl2).timers,
      tr.id ≠ c0.nextTimer) ∧
    (∀ c3, Steps (Set (Set c0 k v1 ttl1) k v2 ttl2) c3 →
      fireTimer c3 c0.nextTimer = c3) ∧
    (Get (Set (Set c0 k v1 ttl1) k v2 ttl2) k).1 = v2 ∧
    (Get (Set (Set c0 k v1 ttl1) k v2 ttl2) k).2.1 = true := by
  obtain ⟨rest1, hhead1⟩ := Set_bucket c0 k v1 ttl1
  have hseed1 := Set_seed c0 k v1 ttl1
  have hhash1 : hash (Set c0 k v1 ttl1) k = hash c0 k := by
    rw [hash_congr hseed1]
  have hfind1 : ((Set c0 k v1 ttl1).data (hash (Set c0 k v1 ttl1) k)).find?
      (fun r => r.key == k) = some ⟨k, v1, c0.nextTimer⟩ := by
    rw [hhash1, hhead1]
    exact List.find?_cons_of_pos _ (by simp)
  have hnt1 := Set_nextTimer c0 k v1 ttl1
  have hdisarm : ∀ tr ∈ (Set (Set c0 k v1 ttl1) k v2 ttl2).timers,
      tr.id ≠ c0.nextTimer := by
    intro tr htr
    rw [Set_found v2 ttl2 hfind1] at htr
    rcases List.mem_cons.mp htr with rfl | h2
    · show (Set c0 k v1 ttl1).nextTimer ≠ c0.nextTimer
      rw [hnt1]
      omega
    · have hp := List.of_mem_filter h2
      simpa using hp
  refine ⟨hdisarm, ?_, (Get_after_Set _ k v2 ttl2).1,
    (Get_after_Set _ k v2 ttl2).2⟩
  intro c3 hsteps
  have hlt : c0.nextTimer < (Set (Set c0 k v1 ttl1) k v2 ttl2).nextTimer := by
    rw [Set_nextTimer, hnt1]
    omega
  exact fireTimer_noop (unarmed_forever hsteps hdisarm hlt).1

/-- C3 is violated by the code.  If the first `Set`'s timer has already
expired when the refresh runs, its callback `deleteWithLock(i, key)` has
been launched and `r.t.Stop()` (whose `false` result the source ignores)
prevents nothing.  The callback re-validates by key only, so instead of
"finding nothing to remove" it finds the record the refresh just wrote,
and erases `v2` — cancelling the refresh's own timer along the way.
Evaluated at the concrete race `Set("k", 1, 1)`; expiry launches the
callback; `Set("k", 2, 3600)`; the pending callback wins the lock: the
refresh had installed `v2 = 2`, yet afterwards `"k"` is gone, `Get`
returns `false` instead of `(2, true)`, and no timer remains armed. -/
theorem C3_code_bug_stale_callback_erases_refresh :
    getVal? raceC2 "k" = some 2 ∧
    getVal? (firePending raceC2 (hash (NewCache Nat seedW) "k") "k") "k"
      = none ∧
    (Get (firePending raceC2 (hash (NewCache Nat seedW) "k") "k") "k").2.1
      = false ∧
    (firePending raceC2 (hash (NewCache Nat seedW) "k") "k").timers = [] :=
  ⟨rfl, rfl, rfl, rfl⟩

/-- C4: `Set(k, v, ttl)` immediately followed by `Get(k)` returns
`(v, true)` for any `ttl > 0`, on every cache state the running program
can be in (`size = capacity` implies a non-empty recency list; on the
excluded junk states Go would dereference `nil` inside `Set`). -/
theorem C4_set_then_get [Inhabited V] (c : lruCache V) (k : String) (v : V)
    (ttl : Int) (httl : 0 < ttl)
    (hlive : c.size = MaxCacheSize → c.lru ≠ []) :
    (Get (Set c k v ttl) k).1 = v ∧ (Get (Set c k v ttl) k).2.1 = true :=
  Get_after_Set c k v ttl

/-- Witness for C4 on the concrete full cache. -/
theorem C4_witness :
    (Get (Set cacheW "g" 7 10) "g").1 = 7 ∧
    (Get (Set cacheW "g" 7 10) "g").2.1 = true :=
  C4_set_then_get cacheW "g" 7 10 (by decide) (fun _ => by decide)

/-- C5: a `Get` of a key that is absent from its hash bucket returns the
zero value paired with `false` and leaves the entire cache state — every
bucket chain, the recency list, the size counter, every record and every
timer — exactly unchanged. -/
theorem C5_get_miss_is_noop [Inhabited V] (c : lruCache V) (k : String)
    (h : (lookup c (hash c k) k).1 = none) :
    Get c k = (default, false, c) := by
  rw [lookup_fst] at h
  exact Get_miss h

/-- Witness for C5: a miss on the concrete cache returns the whole state
untouched. -/
theorem C5_witness : Get cacheW "zz" = (default, false, cacheW) :=
  C5_get_miss_is_noop cacheW "zz" (by rfl)

/-- C6: the internal `delete` is a silent no-op when the key is absent
from the bucket's chain — in particular a TTL timer firing for an
already-removed key leaves everything (and `size`) alone — and when the
key is present it cancels exactly its timer, erases it from the chain,
removes it from the recency list, and decrements `size` by exactly one. -/
theorem C6_delete_noop_or_unlinks (c : lruCache V) (idx : Fin MaxCacheSize)
    (k : String) :
    ((lookup c idx k).1 = none → delete c idx k = c) ∧
    (∀ r, (lookup c idx k).1 = some r →
      delete c idx k =
        { c with
          timers := c.timers.filter (fun tr => tr.id != r.t),
          data := Function.update c.data idx
            ((c.data idx).eraseP (fun x => x.key == k)),
          lru := c.lru.erase k,
          size := dec64 c.size } ∧
      (1 ≤ c.size → c.size ≤ MaxCacheSize →
        (delete c idx k).size = c.size - 1)) ∧
    (∀ id tr, c.timers.find? (fun x => x.id == id) = some tr →
      (c.data tr.bucket).find? (fun x => x.key == tr.key) = none →
      fireTimer c id
        = { c with timers := c.timers.filter (fun x => x.id != id) }) := by
  refine ⟨?_, ?_, ?_⟩
  · intro h
    rw [lookup_fst] at h
    exact delete_none h
  · intro r h
    rw [lookup_fst] at h
    refine ⟨delete_some h, ?_⟩
    intro h1 h2
    rw [delete_some h]
    show dec64 c.size = c.size - 1
    exact dec64_eq_pred h1 h2
  · intro id tr hf hstale
    unfold fireTimer
    rw [hf]
    show deleteWithLock
        { c with timers := c.timers.filter (fun x => x.id != id) }
        tr.bucket tr.key
      = { c with timers := c.timers.filter (fun x => x.id != id) }
    unfold deleteWithLock
    exact delete_none hstale

/-- Witness for C6: a miss-delete is the identity, a hit-delete drops the
size by one, and firing a stale timer only consumes the timer. -/
theorem C6_witness :
    delete cacheW (hash cacheW "zz") "zz" = cacheW ∧
    (delete cacheW (hash cacheW "a") "a").size = cacheW.size - 1 ∧
    fireTimer staleW 0
      = { staleW with timers := staleW.timers.filter (fun x => x.id != 0) } := by
  refine ⟨(C6_delete_noop_or_unlinks cacheW (hash cacheW "zz") "zz").1 (by rfl),
    ?_, ?_⟩
  · obtain ⟨heq, hsz⟩ := (C6_delete_noop_or_unlinks cacheW (hash cacheW "a")
      "a").2.1 ⟨"a", 1, 0⟩ (by rfl)
    exact hsz (by decide) (by decide)
  · exact (C6_delete_noop_or_unlinks staleW ⟨0, by decide⟩ "unused").2.2 0
      ⟨0, ⟨1, by decide⟩, "x", 5⟩ (by rfl) (by rfl)

/-- C7 counterexample: construction takes no capacity argument — the
capacity of every instance, however constructed, is the package constant
`MaxCacheSize = 5`; in particular no caller can obtain an instance whose
bound is, say, 7, refuting "the caller may choose any small positive
integer ... as the bound of that particular instance". -/
theorem C7_counterexample :
    capacityOf (NewCache Nat seedW) = 5 ∧
    capacityOf (NewCache Nat (fun _ => 0)) = 5 ∧
    (∀ (W : Type) (seedF : String → Nat), capacityOf (NewCache W seedF) = 5) ∧
    ¬∃ seedF : String → Nat, capacityOf (NewCache Nat seedF) = 7 := by
  refine ⟨rfl, rfl, fun _ _ => rfl, ?_⟩
  rintro ⟨seedF, h⟩
  simp [capacityOf, MaxCacheSize] at h

/-- C7 as amended: the capacity is not chosen per instance at
construction; it is the compile-time package constant `MaxCacheSize = 5`
(which the source documents as required to lie within 1..10000), the same
for every instance and fixed for each instance's lifetime. -/
theorem C7_capacity_is_package_constant :
    MaxCacheSize = 5 ∧ 1 ≤ MaxCacheSize ∧ MaxCacheSize ≤ 10000 ∧
    ∀ (W : Type) (seedF : String → Nat),
      capacityOf (NewCache W seedF) = MaxCacheSize :=
  ⟨rfl, by decide, by decide, fun _ _ => rfl⟩

/-- C8: with the lock free, invoking the internal helpers `lookup` or
`delete` panics through the `mustBeLocked` assertion instead of touching
cache state; with the lock held the panic branch is unreachable and the
helpers run normally. -/
theorem C8_helpers_require_lock (c : lruCache V) (i : Fin MaxCacheSize)
    (k : String) :
    (lookupChecked false c i k
        = Except.error "the code must be executed within a cache transaction" ∧
      deleteChecked false c i k
        = Except.error "the code must be executed within a cache transaction") ∧
    (lookupChecked true c i k = Except.ok (lookup c i k) ∧
      deleteChecked true c i k = Except.ok (delete c i k)) :=
  ⟨⟨rfl, rfl⟩, ⟨rfl, rfl⟩⟩

/-- C9: from any well-formed state, after a `Get`, a `Set` (including an
eviction whose victim shares the inserted key's bucket) or a `delete`,
the records reachable through the bucket chains are exactly the records
of the recency list, each reachable through exactly one chain. -/
theorem C9_chains_match_recency [Inhabited V] (c : lruCache V)
    (k k2 : String) (v : V) (ttl : Int) (idx : Fin MaxCacheSize)
    (hwf : WF c) :
    chainsMatchLru ((Get c k).2.2) ∧ chainsMatchLru (Set c k v ttl) ∧
      chainsMatchLru (delete c idx k2) := by
  have h1 := WF_Get hwf k
  have h2 := WF_Set hwf k v ttl
  have h3 := WF_delete hwf idx k2
  exact ⟨⟨h1.2.2.1, h1.2.1⟩, ⟨h2.2.2.1, h2.2.1⟩, ⟨h3.2.2.1, h3.2.1⟩⟩

/-- Witness for C9 on the concrete full cache; the `Set` here evicts a
victim that is the head of the very bucket the new key lands in (the
`er == root` case). -/
theorem C9_witness :
    chainsMatchLru ((Get cacheW "ffffff").2.2) ∧
    chainsMatchLru (Set cacheW "ffffff" 6 10) ∧
    chainsMatchLru (delete cacheW (hash cacheW "a") "a") :=
  C9_chains_match_recency cacheW "ffffff" "a" 6 10 (hash cacheW "a")
    (WF_runSets seedW opsW)

/-- C10: every `Get` hit and every `Set` refresh of an existing key also
moves that record to the head of its bucket chain: the bucket becomes the
(updated) record consed onto the chain with its old occurrence
unlinked. -/
theorem C10_hit_moves_to_bucket_head [Inhabited V] (c : lruCache V)
    (k : String) (r : record V) (v : V) (ttl : Int)
    (hfound : (lookup c (hash c k) k).1 = some r) :
    ((Get c k).2.2).data (hash c k)
        = r :: (c.data (hash c k)).eraseP (fun x => x.key == k) ∧
      (Set c k v ttl).data (hash c k)
        = { r with val := v, t := c.nextTimer }
          :: (c.data (hash c k)).eraseP (fun x => x.key == k) := by
  rw [lookup_fst] at hfound
  constructor
  · rw [Get_found hfound]
    show Function.update c.data (hash c k)
        (r :: (c.data (hash c k)).eraseP (fun x => x.key == k)) (hash c k)
      = r :: (c.data (hash c k)).eraseP (fun x => x.key == k)
    rw [Function.update_same]
  · rw [Set_found v ttl hfound]
    show Function.update c.data (hash c k)
        ({ r with val := v, t := c.nextTimer }
          :: (c.data (hash c k)).eraseP (fun x => x.key == k)) (hash c k)
      = { r with val := v, t := c.nextTimer }
        :: (c.data (hash c k)).eraseP (fun x => x.key == k)
    rw [Function.update_same]

/-- Witness for C10 on a bucket holding two colliding records: the deeper
record `"a"` comes to the chain head on a hit and on a refresh. -/
theorem C10_witness :
    ((Get cacheW2 "a").2.2).data (hash cacheW2 "a")
        = (⟨"a", 1, 0⟩ : record Nat)
          :: (cacheW2.data (hash cacheW2 "a")).eraseP (fun x => x.key == "a") ∧
      (Set cacheW2 "a" 9 7).data (hash cacheW2 "a")
        = ({ (⟨"a", 1, 0⟩ : record Nat) with val := 9, t := cacheW2.nextTimer })
          :: (cacheW2.data (hash cacheW2 "a")).eraseP (fun x => x.key == "a") :=
  C10_hit_moves_to_bucket_head cacheW2 "a" ⟨"a", 1, 0⟩ 9 7 (by rfl)

end Cache
